import Mathlib

/-!
Verification of the go-admin API-gateway core against its specification.
Each Go function referenced by a claim is shallowly embedded as an
executable Lean definition; times are modelled as integers or rationals,
Go maps as lookup functions or association lists, and `container/list`
as a Lean `List` whose head is the front of the doubly-linked list.
-/

namespace Gateway

/-! ### Circuit breaker — embedding of src/gateway/circuitbreaker.go -/

inductive CircuitState
  | StateClosed
  | StateOpen
  | StateHalfOpen
deriving DecidableEq, Repr

open CircuitState

/-- Errors returned by the breaker gate (`ErrCircuitOpen`, `ErrTooManyRequests`). -/
inductive CBErr
  | ErrCircuitOpen
  | ErrTooManyRequests
deriving DecidableEq, Repr

/-- State of a `CircuitBreaker`, with the three config fields it reads
(`config.Threshold`, `config.Timeout`, `config.MaxRequests`) inlined. -/
structure CircuitBreaker where
  threshold : Nat
  timeout : Int
  maxRequests : Nat
  state : CircuitState
  failures : Nat
  lastFailTime : Int
  requests : Nat
deriving DecidableEq, Repr

/-- Embedding of `NewCircuitBreaker` for an enabled config: state starts
`StateClosed` with zeroed counters (Go zero values). -/
def NewCircuitBreaker (threshold : Nat) (timeout : Int) (maxRequests : Nat) :
    CircuitBreaker :=
  { threshold := threshold, timeout := timeout, maxRequests := maxRequests,
    state := StateClosed, failures := 0, lastFailTime := 0, requests := 0 }

/-- Embedding of `CircuitBreaker.beforeRequest`; `now` is the current time, so
`time.Since(cb.lastFailTime)` is `now - cb.lastFailTime`. -/
def beforeRequest (cb : CircuitBreaker) (now : Int) : CircuitBreaker × Option CBErr :=
  match cb.state with
  | StateClosed => (cb, none)
  | StateOpen =>
      if now - cb.lastFailTime > cb.timeout then
        ({ cb with state := StateHalfOpen, requests := 0 }, none)
      else
        (cb, some CBErr.ErrCircuitOpen)
  | StateHalfOpen =>
      if cb.requests ≥ cb.maxRequests then
        (cb, some CBErr.ErrTooManyRequests)
      else
        ({ cb with requests := cb.requests + 1 }, none)

/-- Embedding of `CircuitBreaker.onSuccess`. -/
def onSuccess (cb : CircuitBreaker) : CircuitBreaker :=
  match cb.state with
  | StateClosed => { cb with failures := 0 }
  | StateHalfOpen => { cb with state := StateClosed, failures := 0, requests := 0 }
  | StateOpen => cb

/-- Embedding of `CircuitBreaker.onFailure`: `failures++` and
`lastFailTime = now` happen before the state switch, exactly as in Go. -/
def onFailure (cb : CircuitBreaker) (now : Int) : CircuitBreaker :=
  let cb' := { cb with failures := cb.failures + 1, lastFailTime := now }
  match cb'.state with
  | StateClosed =>
      if cb'.failures ≥ cb'.threshold then { cb' with state := StateOpen } else cb'
  | StateHalfOpen => { cb' with state := StateOpen, requests := 0 }
  | StateOpen => cb'

/-- Embedding of `CircuitBreaker.afterRequest`: a non-nil error records a
failure, otherwise a success. -/
def afterRequest (cb : CircuitBreaker) (now : Int) (failed : Bool) : CircuitBreaker :=
  if failed then onFailure cb now else onSuccess cb

/-- One observable mutation of the breaker: a `beforeRequest` gate (its error
result projected away) or an `afterRequest` record.  Interleavings of these
events over-approximate every concurrent schedule of `Call(fn)` invocations,
since both run under the breaker's single mutex. -/
inductive CBStep : CircuitBreaker → CircuitBreaker → Prop
  | beforeStep (cb : CircuitBreaker) (now : Int) : CBStep cb (beforeRequest cb now).1
  | afterStep (cb : CircuitBreaker) (now : Int) (failed : Bool) :
      CBStep cb (afterRequest cb now failed)

/-- Reachability of breaker states from an initial state along `CBStep`. -/
def CBReachable (init : CircuitBreaker) : CircuitBreaker → Prop :=
  Relation.ReflTransGen CBStep init

lemma cbStep_config (cb cb' : CircuitBreaker) (h : CBStep cb cb') :
    cb'.threshold = cb.threshold ∧ cb'.maxRequests = cb.maxRequests := by
  cases h with
  | beforeStep now =>
      cases hs : cb.state <;> simp only [beforeRequest, hs] <;>
        (try split) <;> exact ⟨by trivial, by trivial⟩
  | afterStep now failed =>
      cases failed <;> cases hs : cb.state <;>
        simp only [afterRequest, onSuccess, onFailure, hs, Bool.false_eq_true,
          if_true, if_false, ite_false, ite_true] <;>
        (try split) <;> exact ⟨by trivial, by trivial⟩

lemma cbStep_preserves (cb cb' : CircuitBreaker) (h : CBStep cb cb')
    (hth : 1 ≤ cb.threshold)
    (hc : cb.state = StateClosed → cb.failures < cb.threshold)
    (hh : cb.state = StateHalfOpen → cb.requests ≤ cb.maxRequests) :
    (cb'.state = StateClosed → cb'.failures < cb'.threshold) ∧
      (cb'.state = StateHalfOpen → cb'.requests ≤ cb'.maxRequests) := by
  cases h with
  | beforeStep now =>
      cases hs : cb.state <;>
        simp_all [beforeRequest] <;> split <;> simp_all <;> omega
  | afterStep now failed =>
      cases failed with
      | false =>
          cases hs : cb.state <;> simp_all [afterRequest, onSuccess] <;> omega
      | true =>
          cases hs : cb.state <;>
            simp_all [afterRequest, onFailure] <;> split <;> simp_all <;> omega

lemma cbReachable_inv (th : Nat) (tm : Int) (mr : Nat) (cb : CircuitBreaker)
    (hth : 1 ≤ th) (h : CBReachable (NewCircuitBreaker th tm mr) cb) :
    (cb.state = StateClosed → cb.failures < cb.threshold) ∧
      (cb.state = StateHalfOpen → cb.requests ≤ cb.maxRequests) := by
  have main : cb.threshold = th ∧
      (cb.state = StateClosed → cb.failures < cb.threshold) ∧
        (cb.state = StateHalfOpen → cb.requests ≤ cb.maxRequests) := by
    induction h with
    | refl => refine ⟨rfl, ?_, ?_⟩ <;> simp [NewCircuitBreaker] <;> omega
    | tail _ hstep ih =>
        have hcfg := cbStep_config _ _ hstep
        have := cbStep_preserves _ _ hstep (by omega) ih.2.1 ih.2.2
        exact ⟨hcfg.1.trans ih.1, this⟩
  exact main.2

/-- Claim C1: the circuit-breaker transitions obey the §4.4 table.  In
`StateClosed` every call is admitted; a failure increments `failures`, sets
`lastFailTime = now`, and moves to `StateOpen` exactly when the incremented
counter reaches the threshold (the reachability invariant shows
`failures < threshold` in Closed, so `failures + 1 ≥ threshold` means it
just reached it); a success resets `failures` to 0.  In `StateOpen` a call
is rejected with `ErrCircuitOpen` unless `now - lastFailTime > timeout`, in
which case the state becomes `StateHalfOpen`, the probe counter `requests`
resets to 0, and the call is admitted.  In `StateHalfOpen` a call is
admitted (incrementing `requests`) only while `requests < maxRequests`,
otherwise it fails with `ErrTooManyRequests`; a failure returns to
`StateOpen` resetting `requests`; a success returns to `StateClosed` with
`failures = 0` and `requests = 0`.  Finally, every reachable state keeps
`requests ≤ maxRequests` in HalfOpen, so at most `maxRequests` probes are
ever concurrently admitted. -/
theorem circuit_breaker_obeys_state_table :
    (∀ (cb : CircuitBreaker) (now : Int), cb.state = StateClosed →
        beforeRequest cb now = (cb, none)) ∧
    (∀ (cb : CircuitBreaker) (now : Int), cb.state = StateOpen →
        now - cb.lastFailTime > cb.timeout →
        beforeRequest cb now = ({ cb with state := StateHalfOpen, requests := 0 }, none)) ∧
    (∀ (cb : CircuitBreaker) (now : Int), cb.state = StateOpen →
        ¬ now - cb.lastFailTime > cb.timeout →
        beforeRequest cb now = (cb, some CBErr.ErrCircuitOpen)) ∧
    (∀ (cb : CircuitBreaker) (now : Int), cb.state = StateHalfOpen →
        cb.requests < cb.maxRequests →
        beforeRequest cb now = ({ cb with requests := cb.requests + 1 }, none)) ∧
    (∀ (cb : CircuitBreaker) (now : Int), cb.state = StateHalfOpen →
        cb.requests ≥ cb.maxRequests →
        beforeRequest cb now = (cb, some CBErr.ErrTooManyRequests)) ∧
    (∀ (cb : CircuitBreaker) (now : Int), cb.state = StateClosed →
        afterRequest cb now true =
          { cb with failures := cb.failures + 1, lastFailTime := now,
                    state := if cb.failures + 1 ≥ cb.threshold then StateOpen
                             else StateClosed }) ∧
    (∀ (cb : CircuitBreaker) (now : Int), cb.state = StateClosed →
        afterRequest cb now false = { cb with failures := 0 }) ∧
    (∀ (cb : CircuitBreaker) (now : Int), cb.state = StateHalfOpen →
        afterRequest cb now true =
          { cb with state := StateOpen, requests := 0,
                    failures := cb.failures + 1, lastFailTime := now }) ∧
    (∀ (cb : CircuitBreaker) (now : Int), cb.state = StateHalfOpen →
        afterRequest cb now false =
          { cb with state := StateClosed, failures := 0, requests := 0 }) ∧
    (∀ (th : Nat) (tm : Int) (mr : Nat) (cb : CircuitBreaker), 1 ≤ th →
        CBReachable (NewCircuitBreaker th tm mr) cb →
        (cb.state = StateClosed → cb.failures < cb.threshold) ∧
          (cb.state = StateHalfOpen → cb.requests ≤ cb.maxRequests)) := by
  refine ⟨?_, ?_, ?_, ?_, ?_, ?_, ?_, ?_, ?_, ?_⟩
  · intro cb now h; simp [beforeRequest, h]
  · intro cb now h htime; simp [beforeRequest, h, htime]
  · intro cb now h htime; simp [beforeRequest, h]; omega
  · intro cb now h hreq; simp [beforeRequest, h]; omega
  · intro cb now h hreq; simp [beforeRequest, h]; omega
  · intro cb now h
    simp only [afterRequest, onFailure, if_true, h]
    split <;> rfl
  · intro cb now h; simp [afterRequest, onSuccess, h]
  · intro cb now h
    simp only [afterRequest, onFailure, if_true, h]
  · intro cb now h; simp [afterRequest, onSuccess, h]
  · exact fun th tm mr cb hth h => cbReachable_inv th tm mr cb hth h

/-- Witness for `circuit_breaker_obeys_state_table`: a breaker with
threshold 2 that is Closed at one failure moves to Open on the next failure
recording the failure time, and an Open breaker whose cool-down has expired
admits a probe in HalfOpen. -/
theorem circuit_breaker_obeys_state_table_witness :
    (afterRequest { threshold := 2, timeout := 60, maxRequests := 1,
                    state := StateClosed, failures := 1, lastFailTime := 0,
                    requests := 0 } 10 true =
      { threshold := 2, timeout := 60, maxRequests := 1, state := StateOpen,
        failures := 2, lastFailTime := 10, requests := 0 }) ∧
    (beforeRequest { threshold := 2, timeout := 60, maxRequests := 1,
                     state := StateOpen, failures := 2, lastFailTime := 10,
                     requests := 0 } 100 =
      ({ threshold := 2, timeout := 60, maxRequests := 1, state := StateHalfOpen,
         failures := 2, lastFailTime := 10, requests := 0 }, none)) := by
  constructor
  · have := circuit_breaker_obeys_state_table.2.2.2.2.2.1
      { threshold := 2, timeout := 60, maxRequests := 1, state := StateClosed,
        failures := 1, lastFailTime := 0, requests := 0 } 10 (by decide)
    rw [this]; rfl
  · have := circuit_breaker_obeys_state_table.2.1
      { threshold := 2, timeout := 60, maxRequests := 1, state := StateOpen,
        failures := 2, lastFailTime := 10, requests := 0 } 100 (by decide) (by decide)
    rw [this]

/-! ### Token-bucket rate limiter — embedding of src/gateway/ratelimiter.go -/

/-- Per-key bucket state (`tokens`, `lastCheck`); `float64` tokens and
`time.Time` stamps are modelled as rationals. -/
structure bucket where
  tokens : ℚ
  lastCheck : ℚ
deriving DecidableEq, Repr

/-- State of a `TokenBucketLimiter`: the `rate`, `burst` and `perIP` config
fields and the bucket map (`map[string]*bucket`, modelled as a lookup
function). -/
structure TokenBucketLimiter where
  rate : ℚ
  burst : ℤ
  perIP : Bool
  buckets : String → Option bucket

/-- Embedding of `NewRateLimiter` for an enabled config: the bucket map
starts empty. -/
def NewRateLimiter (rate : ℚ) (burst : ℤ) (perIP : Bool) : TokenBucketLimiter :=
  { rate := rate, burst := burst, perIP := perIP, buckets := fun _ => none }

def Allow (rl : TokenBucketLimiter) (now : ℚ) (key : String) :
    Bool × TokenBucketLimiter :=
  let key := if rl.perIP then key else "global"
  let b : bucket :=
    match rl.buckets key with
    | some b => b
    | none => { tokens := (rl.burst : ℚ), lastCheck := now }
  let elapsed : ℚ := now - b.lastCheck
  let tokens₁ : ℚ := b.tokens + elapsed * rl.rate
  let tokens₂ : ℚ := if tokens₁ > (rl.burst : ℚ) then (rl.burst : ℚ) else tokens₁
  if tokens₂ ≥ 1 then
    (true, { rl with buckets := fun k =>
        if k = key then some { tokens := tokens₂ - 1, lastCheck := now }
        else rl.buckets k })
  else
    (false, { rl with buckets := fun k =>
        if k = key then some { tokens := tokens₂, lastCheck := now }
        else rl.buckets k })

lemma Allow_spec (rl : TokenBucketLimiter) (now : ℚ) (key : String) :
    (Allow rl now key).2.rate = rl.rate ∧
    (Allow rl now key).2.burst = rl.burst ∧
    (Allow rl now key).2.perIP = rl.perIP ∧
    (let key' := if rl.perIP then key else "global"
     let b : bucket :=
       match rl.buckets key' with
       | some b => b
       | none => { tokens := (rl.burst : ℚ), lastCheck := now }
     let tokens₂ : ℚ :=
       if b.tokens + (now - b.lastCheck) * rl.rate > (rl.burst : ℚ) then (rl.burst : ℚ)
       else b.tokens + (now - b.lastCheck) * rl.rate
     ((Allow rl now key).1 = true ↔ tokens₂ ≥ 1) ∧
     (Allow rl now key).2.buckets =
       fun k => if k = key' then
           some { tokens := if tokens₂ ≥ 1 then tokens₂ - 1 else tokens₂, lastCheck := now }
         else rl.buckets k) := by
  unfold Allow
  set key' := if rl.perIP then key else "global" with hk
  set b : bucket :=
    (match rl.buckets key' with
     | some b => b
     | none => { tokens := (rl.burst : ℚ), lastCheck := now }) with hbdef
  set t1 : ℚ := b.tokens + (now - b.lastCheck) * rl.rate with ht1
  set t2 : ℚ := if t1 > (rl.burst : ℚ) then (rl.burst : ℚ) else t1 with ht2
  by_cases hge : t2 ≥ 1
  · rw [if_pos hge]
    refine ⟨rfl, rfl, rfl, ?_, ?_⟩
    · simp [hge]
    · simp only [if_pos hge]
  · rw [if_neg hge]
    refine ⟨rfl, rfl, rfl, ?_, ?_⟩
    · simp [hge]
    · simp only [if_neg hge]

def BucketsInv (rl : TokenBucketLimiter) (t : ℚ) : Prop :=
  ∀ k b, rl.buckets k = some b →
    0 ≤ b.tokens ∧ b.tokens ≤ (rl.burst : ℚ) ∧ b.lastCheck ≤ t

lemma allow_preserves_inv (rl : TokenBucketLimiter) (now t : ℚ) (key : String)
    (hrate : 0 ≤ rl.rate) (hburst : 0 ≤ rl.burst) (ht : t ≤ now)
    (hinv : BucketsInv rl t) : BucketsInv (Allow rl now key).2 now := by
  obtain ⟨-, hburstEq, -, -, hbuckets⟩ := Allow_spec rl now key
  have hburstQ : (0 : ℚ) ≤ (rl.burst : ℚ) := by exact_mod_cast hburst
  intro k b hb
  rw [hburstEq]
  rw [hbuckets] at hb
  dsimp only at hb
  by_cases hmatch : k = (if rl.perIP then key else "global")
  · rw [if_pos hmatch] at hb
    injection hb with hb
    subst hb
    rcases hc : rl.buckets (if rl.perIP = true then key else "global") with _ | bb
    · simp only [hc]
      have hz : (now - now) * rl.rate = 0 := by ring
      refine ⟨?_, ?_, le_refl _⟩ <;>
        split_ifs with h h2 <;> simp only [hz, add_zero] at * <;>
          push_cast at * <;> nlinarith
    · simp only [hc]
      obtain ⟨h1, h2, h3⟩ := hinv _ bb hc
      have hel : (0 : ℚ) ≤ (now - bb.lastCheck) * rl.rate :=
        mul_nonneg (by linarith) hrate
      refine ⟨?_, ?_, le_refl _⟩ <;>
        split_ifs with h h2 <;> push_cast at * <;> nlinarith
  · rw [if_neg hmatch] at hb
    obtain ⟨h1, h2, h3⟩ := hinv k b hb
    exact ⟨h1, h2, h3.trans ht⟩

/-- Folding `Allow` over a list of `(now, key)` calls in order. -/
def AllowSeq (rl : TokenBucketLimiter) (calls : List (ℚ × String)) :
    TokenBucketLimiter :=
  calls.foldl (fun rl c => (Allow rl c.1 c.2).2) rl

/-- The call timestamps are non-decreasing and start no earlier than `t`
(clock monotonicity of `time.Now()`). -/
def TimesOK : ℚ → List (ℚ × String) → Prop
  | _, [] => True
  | t, (now, _) :: rest => t ≤ now ∧ TimesOK now rest

lemma allowSeq_fields (calls : List (ℚ × String)) :
    ∀ rl : TokenBucketLimiter,
      (AllowSeq rl calls).rate = rl.rate ∧ (AllowSeq rl calls).burst = rl.burst := by
  induction calls with
  | nil => exact fun rl => ⟨rfl, rfl⟩
  | cons c rest ih =>
      intro rl
      obtain ⟨hr, hb, -, -, -⟩ := Allow_spec rl c.1 c.2
      obtain ⟨ihr, ihb⟩ := ih (Allow rl c.1 c.2).2
      exact ⟨ihr.trans hr, ihb.trans hb⟩

lemma allowSeq_inv (calls : List (ℚ × String)) :
    ∀ (rl : TokenBucketLimiter) (t : ℚ), 0 ≤ rl.rate → 0 ≤ rl.burst →
      BucketsInv rl t → TimesOK t calls →
      ∃ t', BucketsInv (AllowSeq rl calls) t' := by
  induction calls with
  | nil => exact fun rl t _ _ hinv _ => ⟨t, hinv⟩
  | cons c rest ih =>
      intro rl t hrate hburst hinv htimes
      obtain ⟨ht, htimes'⟩ := htimes
      obtain ⟨hr, hb, -, -, -⟩ := Allow_spec rl c.1 c.2
      have hstep := allow_preserves_inv rl c.1 t c.2 hrate hburst ht hinv
      exact ih (Allow rl c.1 c.2).2 c.1 (hr ▸ hrate) (hb ▸ hburst) hstep htimes'

/-- Claim C2: on each `Allow(key)` call the key's bucket (the literal key
when `perIP`, else `"global"`; a missing bucket materializes full with
`lastCheck = now`) is refilled to
`min(burst, tokens + (now - lastCheck) × rate)` with `lastCheck` set to
`now`; the call returns true and takes one token exactly when the refilled
balance is at least 1, and leaves every other bucket untouched.
Consequently, along any monotonically-timed call sequence from a fresh
limiter with `rate ≥ 0` and `burst ≥ 0`, every bucket's token balance stays
within `[0, burst]`. -/
theorem token_bucket_allow_spec :
    (∀ (rl : TokenBucketLimiter) (now : ℚ) (key : String),
      let key' := if rl.perIP then key else "global"
      let b : bucket :=
        match rl.buckets key' with
        | some b => b
        | none => { tokens := (rl.burst : ℚ), lastCheck := now }
      let refilled : ℚ := min (rl.burst : ℚ) (b.tokens + (now - b.lastCheck) * rl.rate)
      ((Allow rl now key).1 = true ↔ 1 ≤ refilled) ∧
      (Allow rl now key).2.buckets key' =
        some { tokens := if 1 ≤ refilled then refilled - 1 else refilled,
               lastCheck := now } ∧
      (∀ k, k ≠ key' → (Allow rl now key).2.buckets k = rl.buckets k)) ∧
    (∀ (rate : ℚ) (burst : ℤ) (perIP : Bool) (t0 : ℚ) (calls : List (ℚ × String)),
      0 ≤ rate → 0 ≤ burst → TimesOK t0 calls →
      ∀ k b, (AllowSeq (NewRateLimiter rate burst perIP) calls).buckets k = some b →
        0 ≤ b.tokens ∧ b.tokens ≤ (burst : ℚ)) := by
  have hmin : ∀ c x : ℚ, (if x > c then c else x) = min c x := by
    intro c x; rcases le_or_lt x c with h | h <;> simp [min_def] <;>
      split_ifs <;> linarith
  constructor
  · intro rl now key
    obtain ⟨-, -, -, hiff, hbuckets⟩ := Allow_spec rl now key
    rw [hmin] at hiff hbuckets
    refine ⟨hiff, ?_, ?_⟩
    · rw [hbuckets]; simp
    · intro k hk; rw [hbuckets]; simp [hk]
  · intro rate burst perIP t0 calls hrate hburst htimes k b hb
    have hinit : BucketsInv (NewRateLimiter rate burst perIP) t0 := by
      intro k b h; simp [NewRateLimiter] at h
    obtain ⟨t', hinv⟩ :=
      allowSeq_inv calls (NewRateLimiter rate burst perIP) t0 hrate hburst hinit htimes
    obtain ⟨h1, h2, -⟩ := hinv k b hb
    obtain ⟨-, hbEq⟩ := allowSeq_fields calls (NewRateLimiter rate burst perIP)
    rw [hbEq] at h2
    exact ⟨h1, h2⟩

/-- Witness for `token_bucket_allow_spec`: a fresh per-IP limiter with rate 1
and burst 1 called once at time 0 on key `a` leaves that bucket with 0 tokens,
inside the `[0, burst]` range. -/
theorem token_bucket_allow_spec_witness :
    (0 : ℚ) ≤ ({ tokens := 0, lastCheck := 0 } : bucket).tokens ∧
      ({ tokens := 0, lastCheck := 0 } : bucket).tokens ≤ ((1 : ℤ) : ℚ) :=
  token_bucket_allow_spec.2 1 1 true 0 [(0, "a")] (by decide) (by decide)
    ⟨le_refl 0, trivial⟩ "a" { tokens := 0, lastCheck := 0 }
    (by simp [AllowSeq, Allow, NewRateLimiter])

/-! ### LRU+TTL cache — embedding of the cache half of src/gateway/ratelimiter.go -/

/-- Node payload of the eviction list (`cacheEntry`): key, value bytes, and
absolute expiry time. -/
structure cacheEntry where
  key : String
  value : List UInt8
  expireTime : ℚ
deriving DecidableEq, Repr

/-- State of an `LRUCache`: config (`maxSize`, `ttl`), the index
(`items : map[string]*list.Element`, modelled by its key set) and the
eviction list (`evictList : *list.List`, head = front = most recently
used). -/
structure LRUCache where
  maxSize : Nat
  ttl : ℚ
  items : List String
  evictList : List cacheEntry
deriving DecidableEq, Repr

/-- Embedding of `NewCache` for an enabled config: empty index and list. -/
def NewCache (maxSize : Nat) (ttl : ℚ) : LRUCache :=
  { maxSize := maxSize, ttl := ttl, items := [], evictList := [] }

/-- Embedding of `LRUCache.removeElement`: unlink the key's node from the
eviction list and delete its key from the index. -/
def LRUCache.removeElement (c : LRUCache) (key : String) : LRUCache :=
  { c with evictList := c.evictList.eraseP (fun e => e.key == key),
           items := c.items.erase key }

/-- Embedding of `LRUCache.evictOldest`: remove the back node when the list
is non-empty. -/
def LRUCache.evictOldest (c : LRUCache) : LRUCache :=
  match c.evictList.getLast? with
  | some e => c.removeElement e.key
  | none => c

/-- Embedding of `LRUCache.Get` for a non-nil cache at time `now`: a key
missing from the index is a miss; an expired node is removed and reported a
miss; a live node is moved to the front of the list and its bytes
returned. -/
def LRUCache.Get (c : LRUCache) (now : ℚ) (key : String) :
    Option (List UInt8) × LRUCache :=
  if key ∈ c.items then
    match c.evictList.find? (fun e => e.key == key) with
    | none => (none, c)
    | some e =>
        if now > e.expireTime then (none, c.removeElement key)
        else (some e.value,
              { c with evictList := e :: c.evictList.eraseP (fun x => x.key == key) })
  else (none, c)

/-- Embedding of `LRUCache.Set` for a non-nil cache at time `now`: an
existing key is moved to the front with its value and `expireTime` updated
in place; a fresh key is front-inserted and, if the list outgrows
`maxSize`, the back node is evicted. -/
def LRUCache.Set (c : LRUCache) (now : ℚ) (key : String) (value : List UInt8) :
    LRUCache :=
  if key ∈ c.items then
    { c with evictList :=
        { key := key, value := value, expireTime := now + c.ttl } ::
          c.evictList.eraseP (fun e => e.key == key) }
  else
    let entry : cacheEntry := { key := key, value := value, expireTime := now + c.ttl }
    let c' := { c with evictList := entry :: c.evictList, items := key :: c.items }
    if c'.evictList.length > c'.maxSize then c'.evictOldest else c'

/-- Embedding of `LRUCache.Delete` for a non-nil cache. -/
def LRUCache.Delete (c : LRUCache) (key : String) : LRUCache :=
  if key ∈ c.items then c.removeElement key else c

/-- Embedding of `LRUCache.Clear` for a non-nil cache. -/
def LRUCache.Clear (c : LRUCache) : LRUCache :=
  { c with items := [], evictList := [] }

/-- Embedding of `LRUCache.Size` for a non-nil cache. -/
def LRUCache.Size (c : LRUCache) : Nat :=
  c.evictList.length

/-- Embedding of `LRUCache.Cleanup` for a non-nil cache: collect every
expired node (Go walks the list back to front), then remove each one. -/
def LRUCache.Cleanup (c : LRUCache) (now : ℚ) : LRUCache :=
  let toRemove := (c.evictList.filter (fun e => now > e.expireTime)).map cacheEntry.key
  toRemove.foldl (fun c k => c.removeElement k) c

/-- The cache invariants of §4.3: no duplicate keys on the list, the index
and the list carry the same keys (so the same cardinality), and the list
never outgrows `maxSize`. -/
def CacheInv (c : LRUCache) : Prop :=
  (c.evictList.map cacheEntry.key).Nodup ∧
  c.items.Perm (c.evictList.map cacheEntry.key) ∧
  c.evictList.length ≤ c.maxSize

lemma keys_eraseP (l : List cacheEntry) (k : String) :
    (l.eraseP (fun e => e.key == k)).map cacheEntry.key =
      (l.map cacheEntry.key).erase k := by
  induction l with
  | nil => rfl
  | cons e rest ih =>
      by_cases h : e.key = k <;>
        simp [List.eraseP_cons, List.erase_cons, h, ih]

lemma perm_cons_eraseP (p : cacheEntry → Bool) (l : List cacheEntry)
    (e : cacheEntry) (h : l.find? p = some e) :
    List.Perm (e :: l.eraseP p) l := by
  induction l with
  | nil => simp at h
  | cons a rest ih =>
      by_cases hp : p a
      · rw [List.find?_cons_of_pos _ hp] at h
        injection h with h
        subst h
        rw [List.eraseP_cons_of_pos hp]
      · rw [List.find?_cons_of_neg _ (by simpa using hp)] at h
        rw [List.eraseP_cons_of_neg (by simpa using hp)]
        exact (List.Perm.swap a e _).trans (List.Perm.cons a (ih h))

lemma removeElement_inv (c : LRUCache) (key : String) (h : CacheInv c) :
    CacheInv (c.removeElement key) := by
  obtain ⟨hnd, hperm, hlen⟩ := h
  refine ⟨?_, ?_, ?_⟩
  · simp only [LRUCache.removeElement, keys_eraseP]
    exact hnd.sublist (List.erase_sublist _ _)
  · simp only [LRUCache.removeElement, keys_eraseP]
    exact hperm.erase key
  · simp only [LRUCache.removeElement]
    exact ((List.eraseP_sublist _).length_le).trans hlen

lemma get_inv (c : LRUCache) (now : ℚ) (key : String) (h : CacheInv c) :
    CacheInv (LRUCache.Get c now key).2 := by
  by_cases hmem : key ∈ c.items
  · rcases hf : c.evictList.find? (fun e => e.key == key) with _ | e
    · simpa [LRUCache.Get, hmem, hf] using h
    · by_cases hexp : now > e.expireTime
      · simpa [LRUCache.Get, hmem, hf, hexp] using removeElement_inv c key h
      · obtain ⟨hnd, hperm, hlen⟩ := h
        have hp := perm_cons_eraseP _ _ _ hf
        have hkeys : List.Perm
            ((e :: c.evictList.eraseP (fun x => x.key == key)).map cacheEntry.key)
            (c.evictList.map cacheEntry.key) := hp.map cacheEntry.key
        have hlen2 : (e :: c.evictList.eraseP (fun x => x.key == key)).length ≤
            c.maxSize := hp.length_eq.le.trans hlen
        simp only [LRUCache.Get, hmem, if_true, hf]
        rw [if_neg hexp]
        exact ⟨hkeys.nodup_iff.mpr hnd, hperm.trans hkeys.symm, hlen2⟩
  · simpa [LRUCache.Get, hmem] using h

lemma set_inv (c : LRUCache) (now : ℚ) (key : String) (value : List UInt8)
    (h : CacheInv c) : CacheInv (LRUCache.Set c now key value) := by
  obtain ⟨hnd, hperm, hlen⟩ := h
  by_cases hmem : key ∈ c.items
  · -- existing key: in-place update, move to front
    have hkmem : key ∈ c.evictList.map cacheEntry.key := hperm.mem_iff.mp hmem
    have hperm2 : List.Perm (c.evictList.map cacheEntry.key)
        (key :: (c.evictList.map cacheEntry.key).erase key) :=
      List.perm_cons_erase hkmem
    obtain ⟨e0, he0mem, he0key⟩ := List.mem_map.mp hkmem
    have hlenerase :=
      List.length_eraseP_of_mem he0mem (p := fun e => e.key == key) (by simp [he0key])
    have hpos : 0 < c.evictList.length :=
      List.length_pos.mpr (List.ne_nil_of_mem he0mem)
    rw [LRUCache.Set, if_pos hmem]
    refine ⟨?_, ?_, ?_⟩
    · simp only [List.map_cons, keys_eraseP]
      rw [List.nodup_cons]
      refine ⟨?_, hnd.sublist (List.erase_sublist _ _)⟩
      intro hk
      exact ((hnd.mem_erase_iff.mp hk).1) rfl
    · simp only [List.map_cons, keys_eraseP]
      exact hperm.trans hperm2
    · simp only [List.length_cons, hlenerase]
      omega
  · -- fresh key: front-insert, possibly evicting the back node
    have hkmem : key ∉ c.evictList.map cacheEntry.key := fun hk =>
      hmem (hperm.mem_iff.mpr hk)
    have hnodup' : ((({ key := key, value := value, expireTime := now + c.ttl } :
        cacheEntry) :: c.evictList).map cacheEntry.key).Nodup := by
      rw [List.map_cons, List.nodup_cons]
      exact ⟨hkmem, hnd⟩
    have hperm' : List.Perm (key :: c.items)
        ((({ key := key, value := value, expireTime := now + c.ttl } : cacheEntry) ::
          c.evictList).map cacheEntry.key) := by
      rw [List.map_cons]
      exact List.Perm.cons key hperm
    simp only [LRUCache.Set, hmem, if_false, ite_false]
    by_cases hgt : (({ key := key, value := value, expireTime := now + c.ttl } :
        cacheEntry) :: c.evictList).length > c.maxSize
    · rw [if_pos hgt]
      -- eviction path: the back node exists and is removed
      rw [LRUCache.evictOldest]
      rcases hlast : (({ key := key, value := value, expireTime := now + c.ttl } :
          cacheEntry) :: c.evictList).getLast? with _ | last
      · simp at hlast
      · have hlmem : last ∈ ({ key := key, value := value, expireTime := now + c.ttl } :
            cacheEntry) :: c.evictList := by
          obtain ⟨hne, hx⟩ := List.mem_getLast?_eq_getLast hlast
          exact hx ▸ List.getLast_mem hne
        have hlen2 := List.length_eraseP_of_mem hlmem
          (p := fun e => e.key == last.key) (by simp)
        refine ⟨?_, ?_, ?_⟩
        · simp only [LRUCache.removeElement, keys_eraseP]
          exact hnodup'.sublist (List.erase_sublist _ _)
        · simp only [LRUCache.removeElement, keys_eraseP]
          exact hperm'.erase last.key
        · simp only [LRUCache.removeElement]
          rw [hlen2]
          simp only [List.length_cons]
          omega
    · rw [if_neg hgt]
      simp only [List.length_cons, gt_iff_lt, not_lt] at hgt
      exact ⟨hnodup', hperm', by simpa using hgt⟩

lemma delete_inv (c : LRUCache) (key : String) (h : CacheInv c) :
    CacheInv (LRUCache.Delete c key) := by
  rw [LRUCache.Delete]
  split
  · exact removeElement_inv c key h
  · exact h

lemma clear_inv (c : LRUCache) (h : CacheInv c) : CacheInv (LRUCache.Clear c) := by
  exact ⟨List.nodup_nil, List.Perm.refl _, by simp [LRUCache.Clear]⟩

lemma cleanup_inv (c : LRUCache) (now : ℚ) (h : CacheInv c) :
    CacheInv (LRUCache.Cleanup c now) := by
  rw [LRUCache.Cleanup]
  generalize ((c.evictList.filter (fun e => now > e.expireTime)).map cacheEntry.key) = ks
  induction ks generalizing c with
  | nil => exact h
  | cons k rest ih => exact ih _ (removeElement_inv c k h)

/-- A public cache operation together with its call-time arguments. -/
inductive CacheOp
  | get (now : ℚ) (key : String)
  | set (now : ℚ) (key : String) (value : List UInt8)
  | del (key : String)
  | clear
  | cleanup (now : ℚ)

/-- Apply one operation to the cache state (returned values discarded). -/
def applyOp (c : LRUCache) : CacheOp → LRUCache
  | .get now key => (LRUCache.Get c now key).2
  | .set now key value => LRUCache.Set c now key value
  | .del key => LRUCache.Delete c key
  | .clear => LRUCache.Clear c
  | .cleanup now => LRUCache.Cleanup c now

/-- Run a sequence of cache operations from a given state. -/
def runOps (c : LRUCache) (ops : List CacheOp) : LRUCache :=
  ops.foldl applyOp c

lemma applyOp_inv (c : LRUCache) (op : CacheOp) (h : CacheInv c) :
    CacheInv (applyOp c op) := by
  cases op with
  | get now key => exact get_inv c now key h
  | set now key value => exact set_inv c now key value h
  | del key => exact delete_inv c key h
  | clear => exact clear_inv c h
  | cleanup now => exact cleanup_inv c now h

lemma runOps_inv (ops : List CacheOp) :
    ∀ c : LRUCache, CacheInv c → CacheInv (runOps c ops) := by
  induction ops with
  | nil => exact fun c h => h
  | cons op rest ih => exact fun c h => ih (applyOp c op) (applyOp_inv c op h)

/-- Claim C3: along every sequence of Get/Set/Delete/Clear/Cleanup
operations from a fresh cache, the index and the eviction list carry
exactly the same key set (`items` is a permutation of the list's keys, which
are duplicate-free, so in particular `|index| = |list|`), and the list never
exceeds `maxSize`.  Moreover `Get` never returns an entry whose expiry has
passed: a returned value always comes from a node with `expireTime ≥ now`,
and an expired node hit by `Get` is removed from both structures and
reported as a miss. -/
theorem cache_invariants_hold :
    (∀ (maxSize : Nat) (ttl : ℚ) (ops : List CacheOp),
        CacheInv (runOps (NewCache maxSize ttl) ops)) ∧
    (∀ (c : LRUCache) (now : ℚ) (key : String) (v : List UInt8),
        (LRUCache.Get c now key).1 = some v →
        ∃ e ∈ c.evictList, e.key = key ∧ e.value = v ∧ ¬ now > e.expireTime) ∧
    (∀ (c : LRUCache) (now : ℚ) (key : String) (e : cacheEntry),
        key ∈ c.items → c.evictList.find? (fun x => x.key == key) = some e →
        now > e.expireTime →
        LRUCache.Get c now key = (none, c.removeElement key)) := by
  refine ⟨?_, ?_, ?_⟩
  · intro maxSize ttl ops
    exact runOps_inv ops (NewCache maxSize ttl)
      ⟨List.nodup_nil, List.Perm.refl _, by simp [NewCache]⟩
  · intro c now key v hv
    by_cases hmem : key ∈ c.items
    · rcases hf : c.evictList.find? (fun e => e.key == key) with _ | e
      · simp [LRUCache.Get, hmem, hf] at hv
      · by_cases hexp : now > e.expireTime
        · simp [LRUCache.Get, hmem, hf, hexp] at hv
        · have := List.mem_of_find?_eq_some hf
          have hkey : e.key = key := by simpa using List.find?_some hf
          simp only [LRUCache.Get, hmem, if_true, hf] at hv
          rw [if_neg hexp] at hv
          simp only at hv
          injection hv with hv
          exact ⟨e, this, hkey, hv, hexp⟩
    · simp [LRUCache.Get, hmem] at hv
  · intro c now key e hmem hf hexp
    simp only [LRUCache.Get, hmem, if_true, hf]
    rw [if_pos hexp]

/-- Witness for `cache_invariants_hold`: a one-entry cache whose entry
expired at time 0, read at time 1, reports a miss and removes the node. -/
theorem cache_invariants_hold_witness :
    LRUCache.Get
        { maxSize := 1, ttl := 1, items := ["k"],
          evictList := [{ key := "k", value := [], expireTime := 0 }] } 1 "k" =
      (none,
        LRUCache.removeElement
          { maxSize := 1, ttl := 1, items := ["k"],
            evictList := [{ key := "k", value := [], expireTime := 0 }] } "k") :=
  cache_invariants_hold.2.2
    { maxSize := 1, ttl := 1, items := ["k"],
      evictList := [{ key := "k", value := [], expireTime := 0 }] }
    1 "k" { key := "k", value := [], expireTime := 0 }
    (by simp) (by rfl) (by decide)

/-- Claim C9: a `Get` hit on a live entry moves exactly that node to the
front of the eviction list, returns its bytes, and leaves the set of nodes
— in particular every node's `expireTime` — unchanged (the new list is a
permutation of the old with the hit node at the head, and the index is
untouched); only `Set` writes `expireTime`, always to `now + ttl`, so
repeated Gets never extend an entry's lifetime beyond its last Set plus the
TTL. -/
theorem cache_get_does_not_refresh_ttl :
    (∀ (c : LRUCache) (now : ℚ) (key : String) (e : cacheEntry),
        key ∈ c.items → c.evictList.find? (fun x => x.key == key) = some e →
        ¬ now > e.expireTime →
        LRUCache.Get c now key =
          (some e.value,
            { c with evictList := e :: c.evictList.eraseP (fun x => x.key == key) }) ∧
        List.Perm ((LRUCache.Get c now key).2.evictList) c.evictList ∧
        (LRUCache.Get c now key).2.evictList.head? = some e ∧
        (LRUCache.Get c now key).2.items = c.items) ∧
    (∀ (c : LRUCache) (now : ℚ) (key : String) (v : List UInt8) (e : cacheEntry),
        CacheInv c →
        (LRUCache.Set c now key v).evictList.find? (fun x => x.key == key) = some e →
        e.expireTime = now + c.ttl ∧ e.value = v ∧ e.key = key) := by
  constructor
  · intro c now key e hmem hf hexp
    have hget : LRUCache.Get c now key =
        (some e.value,
          { c with evictList := e :: c.evictList.eraseP (fun x => x.key == key) }) := by
      simp only [LRUCache.Get, hmem, if_true, hf]
      rw [if_neg hexp]
    refine ⟨hget, ?_, ?_, ?_⟩
    · rw [hget]
      exact perm_cons_eraseP _ _ _ hf
    · rw [hget]
      rfl
    · rw [hget]
  · intro c now key v e hinv hf
    obtain ⟨hnd, hperm, hlen⟩ := hinv
    by_cases hmem : key ∈ c.items
    · rw [LRUCache.Set, if_pos hmem] at hf
      rw [List.find?_cons_of_pos _ (by simp)] at hf
      injection hf with hf
      subst hf
      exact ⟨rfl, rfl, rfl⟩
    · have hkmem : key ∉ c.evictList.map cacheEntry.key := fun hk =>
        hmem (hperm.mem_iff.mpr hk)
      simp only [LRUCache.Set, hmem, if_false, ite_false] at hf
      by_cases hgt : (({ key := key, value := v, expireTime := now + c.ttl } :
          cacheEntry) :: c.evictList).length > c.maxSize
      · rw [if_pos hgt, LRUCache.evictOldest] at hf
        rcases hlast : (({ key := key, value := v, expireTime := now + c.ttl } :
            cacheEntry) :: c.evictList).getLast? with _ | last
        · exfalso
          have h1 : (({ key := key, value := v, expireTime := now + c.ttl } :
              cacheEntry) :: c.evictList).getLast?.isSome :=
            List.getLast?_isSome.mpr (by simp)
          rw [hlast] at h1
          simp at h1
        · rw [hlast] at hf
          have hlmem : last ∈ ({ key := key, value := v, expireTime := now + c.ttl } :
              cacheEntry) :: c.evictList := by
            obtain ⟨hne, hx⟩ := List.mem_getLast?_eq_getLast hlast
            exact hx ▸ List.getLast_mem hne
          rcases List.mem_cons.mp hlmem with heq | htail
        -- the evicted back node is either the fresh head (empty-tail case)…
          · subst heq
            simp only [LRUCache.removeElement] at hf
            rw [List.eraseP_cons_of_pos (by simp)] at hf
            rw [List.find?_eq_none.mpr ?_] at hf
            · exact absurd hf (by simp)
            · intro x hx hpx
              exact hkmem (List.mem_map.mpr ⟨x, hx, by simpa using hpx⟩)
        -- …or a genuine tail node with a different key
          · have hkne : last.key ≠ key := fun hk =>
              hkmem (hk ▸ List.mem_map.mpr ⟨last, htail, rfl⟩)
            simp only [LRUCache.removeElement] at hf
            rw [List.eraseP_cons_of_neg (by simpa using fun h => hkne h.symm)] at hf
            rw [List.find?_cons_of_pos _ (by simp)] at hf
            injection hf with hf
            subst hf
            exact ⟨rfl, rfl, rfl⟩
      · rw [if_neg hgt] at hf
        rw [List.find?_cons_of_pos _ (by simp)] at hf
        injection hf with hf
        subst hf
        exact ⟨rfl, rfl, rfl⟩

/-- Witness for `cache_get_does_not_refresh_ttl`: reading a live entry at
time 0 from a one-entry cache returns its bytes and fronts the same node. -/
theorem cache_get_does_not_refresh_ttl_witness :
    LRUCache.Get
        { maxSize := 1, ttl := 5, items := ["k"],
          evictList := [{ key := "k", value := [7], expireTime := 5 }] } 0 "k" =
      (some [7],
        { maxSize := 1, ttl := 5, items := ["k"],
          evictList := [{ key := "k", value := [7], expireTime := 5 }] }) :=
  ((cache_get_does_not_refresh_ttl.1
    { maxSize := 1, ttl := 5, items := ["k"],
      evictList := [{ key := "k", value := [7], expireTime := 5 }] }
    0 "k" { key := "k", value := [7], expireTime := 5 }
    (by simp) (by rfl) (by decide)).1).trans (by rfl)

/-- Nil-receiver wrapper of `LRUCache.Get` (`if c == nil { return nil, false }`). -/
def cacheGet : Option LRUCache → ℚ → String → Option (List UInt8) × Option LRUCache
  | none, _, _ => (none, none)
  | some c, now, key =>
      ((LRUCache.Get c now key).1, some (LRUCache.Get c now key).2)

/-- Nil-receiver wrapper of `LRUCache.Set` (`if c == nil { return }`). -/
def cacheSet : Option LRUCache → ℚ → String → List UInt8 → Option LRUCache
  | none, _, _, _ => none
  | some c, now, key, value => some (LRUCache.Set c now key value)

/-- Nil-receiver wrapper of `LRUCache.Delete` (`if c == nil { return }`). -/
def cacheDelete : Option LRUCache → String → Option LRUCache
  | none, _ => none
  | some c, key => some (LRUCache.Delete c key)

/-- Nil-receiver wrapper of `LRUCache.Clear` (`if c == nil { return }`). -/
def cacheClear : Option LRUCache → Option LRUCache
  | none => none
  | some c => some (LRUCache.Clear c)

/-- Nil-receiver wrapper of `LRUCache.Size` (`if c == nil { return 0 }`). -/
def cacheSize : Option LRUCache → Nat
  | none => 0
  | some c => LRUCache.Size c

/-- Claim C10: every public cache operation is total on a nil (disabled)
cache: `Get` returns `(nil, false)` for every key and leaves the cache nil,
`Set`, `Delete` and `Clear` are no-ops, and `Size` returns 0. -/
theorem nil_cache_operations_are_noops :
    (∀ (now : ℚ) (key : String), cacheGet none now key = (none, none)) ∧
    (∀ (now : ℚ) (key : String) (v : List UInt8), cacheSet none now key v = none) ∧
    (∀ key : String, cacheDelete none key = none) ∧
    cacheClear none = none ∧
    cacheSize none = 0 :=
  ⟨fun _ _ => rfl, fun _ _ _ => rfl, fun _ => rfl, rfl, rfl⟩

/-! ### Backend pool & load balancers — embedding of src/gateway/load_balancer.go -/

/-- A `Backend`: URL, alive flag, and connection counter (`Connections`);
the embedded reverse-proxy handle plays no role in selection. -/
structure Backend where
  url : String
  alive : Bool
  connections : Int
deriving DecidableEq, Repr

/-- State of a `RoundRobinBalancer`: the pool and the `current` counter, a
`uint64` kept modulo `2 ^ 64`. -/
structure RoundRobinBalancer where
  backends : List Backend
  current : Nat
deriving DecidableEq, Repr

/-- The scan loop of `RoundRobinBalancer.NextBackend`
(`for i := 0; i < len(backends); i++`), probing index `(start + i) % N` and
returning the first alive backend; `remaining` counts the iterations left. -/
def findLoop (backends : List Backend) (start : Nat) : Nat → Nat → Option Backend
  | _, 0 => none
  | i, remaining + 1 =>
      match backends[(start + i) % backends.length]? with
      | some b => if b.alive then some b else findLoop backends start (i + 1) remaining
      | none => findLoop backends start (i + 1) remaining

/-- Embedding of `RoundRobinBalancer.NextBackend`: an empty pool yields nil
before the counter is touched; otherwise `atomic.AddUint64` first increments
the counter (wrapping at `2 ^ 64`) and the scan starts at the incremented
counter modulo N. -/
def RoundRobinBalancer.NextBackend (rb : RoundRobinBalancer) :
    Option Backend × RoundRobinBalancer :=
  if rb.backends.length = 0 then (none, rb)
  else
    let current' := (rb.current + 1) % 2 ^ 64
    let start := current' % rb.backends.length
    (findLoop rb.backends start 0 rb.backends.length, { rb with current := current' })

/-- Embedding of `LeastConnectionBalancer.NextBackend`: scan the pool,
skipping dead backends, keeping the first backend with the smallest
connection count (`minConns == -1 || conns < minConns`). -/
def LeastConnectionBalancer.NextBackend (backends : List Backend) : Option Backend :=
  backends.foldl
    (fun selected b =>
      if !b.alive then selected
      else
        match selected with
        | none => some b
        | some s => if b.connections < s.connections then some b else selected)
    none

/-- Embedding of `RandomBalancer.NextBackend`: collect the alive backends
and pick index `now_ns % len(aliveBackends)` (the Go timestamp is
non-negative, modelled as `Nat`). -/
def RandomBalancer.NextBackend (backends : List Backend) (nowNs : Nat) :
    Option Backend :=
  if backends.length = 0 then none
  else
    let aliveBackends := backends.filter (fun b => b.alive)
    if aliveBackends.length = 0 then none
    else aliveBackends[nowNs % aliveBackends.length]?

/-! ### Proxy stage — embedding of src/gateway/proxy.go -/

/-- What the `ProxyMiddleware` handler does with a request before any
upstream traffic: pass a whitelisted path to the next handler, answer 503
when no backend is available, or enter the circuit-breaker call. -/
inductive ProxyAction
  | passToNext
  | respond (status : Nat) (body : String)
  | callBreaker (b : Backend)
deriving DecidableEq, Repr

/-- Embedding of the dispatch prefix of `ProxyMiddleware`: whitelist check,
then `lb.NextBackend()` nil check answering
`http.Error(w, "Service Unavailable", 503)`, else the breaker call. -/
def ProxyMiddleware (whitelisted : Bool) (backend : Option Backend) : ProxyAction :=
  if whitelisted then ProxyAction.passToNext
  else
    match backend with
    | none => ProxyAction.respond 503 "Service Unavailable"
    | some b => ProxyAction.callBreaker b

/-- Embedding of `isClientError`: the placeholder returns false for every
error, treating all failures as retryable. -/
def isClientError (_err : String) : Bool :=
  false

/-- The retry loop of `proxyRequestWithRetry`
(`for attempt := 0; attempt <= config.RetryAttempts; attempt++`), with the
result of each upstream attempt given by `outcome` (`none` = success,
`some e` = the error of that attempt).  Returns the surfaced error and the
number of attempts performed. -/
def retryLoop (retryAttempts : Nat) (outcome : Nat → Option String)
    (lastErr : Option String) (attempt : Nat) : Option String × Nat :=
  if h : attempt > retryAttempts then (lastErr, attempt)
  else
    match outcome attempt with
    | none => (none, attempt + 1)
    | some e =>
        if isClientError e then (some e, attempt + 1)
        else retryLoop retryAttempts outcome (some e) (attempt + 1)
termination_by retryAttempts + 1 - attempt
decreasing_by simp_all; omega

/-- Embedding of `proxyRequestWithRetry`, abstracted over the per-attempt
upstream results. -/
def proxyRequestWithRetry (retryAttempts : Nat) (outcome : Nat → Option String) :
    Option String × Nat :=
  retryLoop retryAttempts outcome none 0

/-! ### Health checker — embedding of HealthChecker.checkBackend -/

/-- Outcome of one health probe: the request could not be built, the HTTP
round-trip failed, or a response with the given status code arrived. -/
inductive ProbeResult
  | reqError
  | transportError
  | response (statusCode : Nat)
deriving DecidableEq, Repr

/-- Embedding of `HealthChecker.checkBackend`, as a function from the
backend's previous alive flag and the probe outcome to the new alive flag
and whether a line was logged: a request-build error marks down and always
logs; a transport error marks down, logging only if the backend was alive;
a `StatusOK` (exactly 200) response marks up, logging only if it was down;
any other status marks down, logging only if it was alive. -/
def checkBackend (wasAlive : Bool) (r : ProbeResult) : Bool × Bool :=
  match r with
  | ProbeResult.reqError => (false, true)
  | ProbeResult.transportError => (false, wasAlive)
  | ProbeResult.response statusCode =>
      if statusCode = 200 then (true, !wasAlive)
      else (false, wasAlive)

/-! ### Client IP resolution — embedding of getClientIP in src/gateway/middleware.go -/

/-- Model of Go `strings.Split` limited to a single-character separator:
walk the characters, cutting a new piece at each separator; always yields
at least one (possibly empty) piece, like the Go function. -/
def splitGo (sep : Char) : List Char → List Char → List String
  | [], acc => [String.mk acc.reverse]
  | c :: rest, acc =>
      if c = sep then String.mk acc.reverse :: splitGo sep rest []
      else splitGo sep rest (c :: acc)

/-- Go `strings.Split(s, sep)` for a one-character separator. -/
def stringsSplit (s : String) (sep : Char) : List String :=
  splitGo sep s.data []

/-- Model of Go `strings.TrimSpace`: drop whitespace from both ends. -/
def trimSpace (s : String) : String :=
  String.mk
    (((s.data.dropWhile Char.isWhitespace).reverse.dropWhile
        Char.isWhitespace).reverse)

/-- Embedding of `getClientIP`.  `xff` and `xri` are the
`X-Forwarded-For` and `X-Real-IP` header values (`""` when absent);
`splitHost` is the result of `net.SplitHostPort(r.RemoteAddr)` (`none` when
it errors), and `remoteAddr` the raw peer address.  When `X-Forwarded-For`
is non-empty the code returns the trimmed FIRST comma-separated entry —
`len(ips) > 0` always holds, so it never falls through to the later
branches. -/
def getClientIP (xff xri : String) (splitHost : Option String)
    (remoteAddr : String) : String :=
  if xff ≠ "" then
    trimSpace ((stringsSplit xff ',').headD "")
  else if xri ≠ "" then
    xri
  else
    match splitHost with
    | some host => host
    | none => remoteAddr

lemma findLoop_some (backends : List Backend) (start : Nat) :
    ∀ (remaining i : Nat) (b : Backend),
      findLoop backends start i remaining = some b →
      ∃ k, k < remaining ∧
        backends[(start + (i + k)) % backends.length]? = some b ∧ b.alive = true ∧
        ∀ j, j < k → ∀ bj, backends[(start + (i + j)) % backends.length]? = some bj →
          bj.alive = false := by
  intro remaining
  induction remaining with
  | zero => intro i b h; simp [findLoop] at h
  | succ rem ih =>
      intro i b h
      rw [findLoop] at h
      rcases hlk : backends[(start + i) % backends.length]? with _ | b0 <;>
        rw [hlk] at h <;> dsimp only at h
      · obtain ⟨k, hk, hfound, halive, hfirst⟩ := ih (i + 1) b h
        refine ⟨k + 1, by omega, ?_, halive, ?_⟩
        · have : i + 1 + k = i + (k + 1) := by omega
          rwa [this] at hfound
        · intro j hj bj hbj
          cases j with
          | zero => simp [Nat.add_zero] at hbj; rw [hlk] at hbj; exact absurd hbj (by simp)
          | succ j' =>
              have : i + (j' + 1) = i + 1 + j' := by omega
              rw [this] at hbj
              exact hfirst j' (by omega) bj hbj
      · by_cases halive : b0.alive
        · rw [if_pos halive] at h
          injection h with h
          subst h
          exact ⟨0, by omega, by simpa using hlk, by simpa using halive, by omega⟩
        · rw [if_neg halive] at h
          obtain ⟨k, hk, hfound, halive', hfirst⟩ := ih (i + 1) b h
          refine ⟨k + 1, by omega, ?_, halive', ?_⟩
          · have : i + 1 + k = i + (k + 1) := by omega
            rwa [this] at hfound
          · intro j hj bj hbj
            cases j with
            | zero =>
                simp only [Nat.add_zero] at hbj
                rw [hlk] at hbj
                injection hbj with hbj
                subst hbj
                simpa using halive
            | succ j' =>
                have : i + (j' + 1) = i + 1 + j' := by omega
                rw [this] at hbj
                exact hfirst j' (by omega) bj hbj

lemma findLoop_none (backends : List Backend) (start : Nat) :
    ∀ (remaining i : Nat),
      findLoop backends start i remaining = none ↔
        ∀ k, k < remaining → ∀ b,
          backends[(start + (i + k)) % backends.length]? = some b →
          b.alive = false := by
  intro remaining
  induction remaining with
  | zero => intro i; simp [findLoop]
  | succ rem ih =>
      intro i
      rw [findLoop]
      rcases hlk : backends[(start + i) % backends.length]? with _ | b0 <;>
        dsimp only
      · rw [ih (i + 1)]
        constructor
        · intro h k hk b hb
          cases k with
          | zero => simp only [Nat.add_zero] at hb; rw [hlk] at hb; exact absurd hb (by simp)
          | succ k' =>
              have : i + (k' + 1) = i + 1 + k' := by omega
              rw [this] at hb
              exact h k' (by omega) b hb
        · intro h k hk b hb
          have : i + 1 + k = i + (k + 1) := by omega
          rw [this] at hb
          exact h (k + 1) (by omega) b hb
      · by_cases halive : b0.alive
        · rw [if_pos halive]
          constructor
          · intro h; exact absurd h (by simp)
          · intro h
            have := h 0 (by omega) b0 (by simpa using hlk)
            rw [this] at halive
            exact absurd halive (by simp)
        · rw [if_neg halive]
          rw [ih (i + 1)]
          constructor
          · intro h k hk b hb
            cases k with
            | zero =>
                simp only [Nat.add_zero] at hb
                rw [hlk] at hb
                injection hb with hb
                subst hb
                simpa using halive
            | succ k' =>
                have : i + (k' + 1) = i + 1 + k' := by omega
                rw [this] at hb
                exact h k' (by omega) b hb
          · intro h k hk b hb
            have : i + 1 + k = i + (k + 1) := by omega
            rw [this] at hb
            exact h (k + 1) (by omega) b hb

lemma shift_mod_surj (n start j : Nat) (hn : 0 < n) (hj : j < n) :
    ∃ k, k < n ∧ (start + k) % n = j := by
  have hs : start % n < n := Nat.mod_lt _ hn
  refine ⟨(n - start % n + j) % n, Nat.mod_lt _ hn, ?_⟩
  have e1 : (start + (n - start % n + j) % n) % n =
      (start + (n - start % n + j)) % n :=
    Nat.ModEq.add_left start (Nat.mod_modEq _ n)
  have e4 : (start + (n - start % n + j)) % n =
      (start % n + (n - start % n + j)) % n :=
    (Nat.ModEq.add_right _ (Nat.mod_modEq start n)).symm
  have e5 : start % n + (n - start % n + j) = j + 1 * n := by omega
  rw [e1, e4, e5, Nat.add_mul_mod_self_right, Nat.mod_eq_of_lt hj]

/-- Claim C6: on a non-empty pool of length N, `NextBackend` advances the
counter by one per call (as a `uint64`, so modulo `2 ^ 64`) no matter which
index matched, starts scanning at the advanced counter modulo N, walks
forward modulo N, and returns the first alive backend it meets — a null
selection exactly when no backend is alive. -/
theorem round_robin_next_backend :
    (∀ rb : RoundRobinBalancer, rb.backends ≠ [] →
        (rb.NextBackend).2 =
          { rb with current := (rb.current + 1) % 2 ^ 64 }) ∧
    (∀ rb : RoundRobinBalancer, rb.backends ≠ [] →
        ∀ b, (rb.NextBackend).1 = some b →
          ∃ k, k < rb.backends.length ∧
            rb.backends[((rb.current + 1) % 2 ^ 64 % rb.backends.length + k) %
              rb.backends.length]? = some b ∧ b.alive = true ∧
            ∀ j, j < k → ∀ bj,
              rb.backends[((rb.current + 1) % 2 ^ 64 % rb.backends.length + j) %
                rb.backends.length]? = some bj → bj.alive = false) ∧
    (∀ rb : RoundRobinBalancer, rb.backends ≠ [] →
        ((rb.NextBackend).1 = none ↔ ∀ b ∈ rb.backends, b.alive = false)) := by
  have hnz : ∀ rb : RoundRobinBalancer, rb.backends ≠ [] →
      ¬ rb.backends.length = 0 := by
    intro rb h h0
    exact h (List.length_eq_zero.mp h0)
  refine ⟨?_, ?_, ?_⟩
  · intro rb hne
    rw [RoundRobinBalancer.NextBackend, if_neg (hnz rb hne)]
  · intro rb hne b hb
    rw [RoundRobinBalancer.NextBackend, if_neg (hnz rb hne)] at hb
    dsimp only at hb
    obtain ⟨k, hk, hfound, halive, hfirst⟩ :=
      findLoop_some rb.backends _ rb.backends.length 0 b hb
    refine ⟨k, hk, by simpa using hfound, halive, ?_⟩
    intro j hj bj hbj
    exact hfirst j hj bj (by simpa using hbj)
  · intro rb hne
    have hlen : 0 < rb.backends.length := Nat.pos_of_ne_zero (hnz rb hne)
    rw [RoundRobinBalancer.NextBackend, if_neg (hnz rb hne)]
    dsimp only
    rw [findLoop_none rb.backends _ rb.backends.length 0]
    constructor
    · intro h b hbmem
      obtain ⟨j, hj⟩ := List.mem_iff_getElem?.mp hbmem
      have hjlt : j < rb.backends.length := by
        rcases List.getElem?_eq_some.mp hj with ⟨hlt, -⟩
        exact hlt
      obtain ⟨k, hklt, hkeq⟩ :=
        shift_mod_surj rb.backends.length
          ((rb.current + 1) % 2 ^ 64 % rb.backends.length) j hlen hjlt
      refine h k hklt b ?_
      rw [Nat.zero_add, hkeq]
      exact hj
    · intro h k hk bk hbk
      rcases List.getElem?_eq_some.mp hbk with ⟨hlt, rfl⟩
      exact h _ (List.getElem_mem hlt)

/-- Witness for `round_robin_next_backend`: a two-backend pool with the
first dead and counter 0 starts at index 1 (counter advanced to 1), finds
the alive second backend at offset 0, and the counter becomes 1. -/
theorem round_robin_next_backend_witness :
    (RoundRobinBalancer.NextBackend
      { backends := [{ url := "a", alive := false, connections := 0 },
                     { url := "b", alive := true, connections := 0 }],
        current := 0 }).2.current = 1 ∧
    (RoundRobinBalancer.NextBackend
      { backends := [{ url := "a", alive := false, connections := 0 },
                     { url := "b", alive := true, connections := 0 }],
        current := 0 }).1 = some { url := "b", alive := true, connections := 0 } := by
  constructor
  · have := round_robin_next_backend.1
      { backends := [{ url := "a", alive := false, connections := 0 },
                     { url := "b", alive := true, connections := 0 }],
        current := 0 } (by simp)
    rw [this]
    rfl
  · decide

/-- Claim C7: under each of the three strategies, an empty pool or a pool
with every alive flag false yields a null selection, and the proxy stage on
a non-whitelisted request answers exactly
`503 "Service Unavailable"` on a null selection — never entering the
circuit-breaker/upstream path, which is taken only for a non-null
selection. -/
theorem no_alive_backend_yields_503 :
    (∀ (backends : List Backend) (current : Nat),
        (backends = [] ∨ ∀ b ∈ backends, b.alive = false) →
        (RoundRobinBalancer.NextBackend
          { backends := backends, current := current }).1 = none) ∧
    (∀ backends : List Backend,
        (backends = [] ∨ ∀ b ∈ backends, b.alive = false) →
        LeastConnectionBalancer.NextBackend backends = none) ∧
    (∀ (backends : List Backend) (nowNs : Nat),
        (backends = [] ∨ ∀ b ∈ backends, b.alive = false) →
        RandomBalancer.NextBackend backends nowNs = none) ∧
    (∀ backend : Option Backend,
        ProxyMiddleware false backend =
            ProxyAction.respond 503 "Service Unavailable" ↔ backend = none) ∧
    (∀ b : Backend, ProxyMiddleware false (some b) = ProxyAction.callBreaker b) := by
  refine ⟨?_, ?_, ?_, ?_, ?_⟩
  · intro backends current hdead
    rcases hdead with rfl | h
    · rfl
    · rw [RoundRobinBalancer.NextBackend]
      by_cases h0 : backends.length = 0
      · rw [if_pos h0]
      · rw [if_neg h0]
        dsimp only
        refine (findLoop_none backends _ backends.length 0).mpr ?_
        intro k hk b hb
        rcases List.getElem?_eq_some.mp hb with ⟨hlt, rfl⟩
        exact h _ (List.getElem_mem hlt)
  · intro backends hdead
    rcases hdead with rfl | h
    · rfl
    · rw [LeastConnectionBalancer.NextBackend]
      have main : ∀ (bs : List Backend), (∀ b ∈ bs, b.alive = false) →
          ∀ acc : Option Backend,
            bs.foldl
              (fun selected b =>
                if !b.alive then selected
                else
                  match selected with
                  | none => some b
                  | some s => if b.connections < s.connections then some b
                              else selected)
              acc = acc := by
        intro bs
        induction bs with
        | nil => intro _ acc; rfl
        | cons b rest ih =>
            intro hd acc
            have hb : b.alive = false := hd b (by simp)
            rw [List.foldl_cons]
            simp only [hb, Bool.not_false, if_true]
            exact ih (fun x hx => hd x (by simp [hx])) acc
      exact main backends h none
  · intro backends nowNs hdead
    rcases hdead with rfl | h
    · rfl
    · rw [RandomBalancer.NextBackend]
      by_cases h0 : backends.length = 0
      · rw [if_pos h0]
      · rw [if_neg h0]
        have hf : backends.filter (fun b => b.alive) = [] :=
          List.filter_eq_nil.mpr (fun b hb => by simp [h b hb])
        dsimp only
        rw [hf]
        rfl
  · intro backend
    cases backend with
    | none => simp [ProxyMiddleware]
    | some b => simp [ProxyMiddleware]
  · intro b
    rfl

/-- Witness for `no_alive_backend_yields_503`: a single dead backend yields
a null round-robin selection, and the non-whitelisted proxy stage answers
503 `Service Unavailable` on it. -/
theorem no_alive_backend_yields_503_witness :
    (RoundRobinBalancer.NextBackend
      { backends := [{ url := "a", alive := false, connections := 0 }],
        current := 0 }).1 = none ∧
    ProxyMiddleware false none = ProxyAction.respond 503 "Service Unavailable" :=
  ⟨no_alive_backend_yields_503.1
      [{ url := "a", alive := false, connections := 0 }] 0 (Or.inr (by decide)),
   (no_alive_backend_yields_503.2.2.2.1 none).mpr rfl⟩

lemma retryLoop_count (retryAttempts : Nat) (outcome : Nat → Option String) :
    ∀ (fuel attempt : Nat) (lastErr : Option String),
      retryAttempts + 1 - attempt = fuel → attempt ≤ retryAttempts + 1 →
      (retryLoop retryAttempts outcome lastErr attempt).2 ≤ retryAttempts + 1 := by
  intro fuel
  induction fuel with
  | zero =>
      intro attempt lastErr hf ha
      rw [retryLoop, dif_pos (by omega)]
      exact ha
  | succ f ih =>
      intro attempt lastErr hf ha
      rw [retryLoop, dif_neg (by omega)]
      rcases ho : outcome attempt with _ | e
      · dsimp only
        omega
      · dsimp only [isClientError]
        rw [if_neg (by simp)]
        exact ih (attempt + 1) (some e) (by omega) (by omega)

lemma retryLoop_all_fail (retryAttempts : Nat) (outcome : Nat → Option String) :
    ∀ (fuel attempt : Nat) (lastErr : Option String),
      retryAttempts + 1 - attempt = fuel → attempt ≤ retryAttempts →
      (∀ i, attempt ≤ i → i ≤ retryAttempts → (outcome i).isSome) →
      retryLoop retryAttempts outcome lastErr attempt =
        (outcome retryAttempts, retryAttempts + 1) := by
  intro fuel
  induction fuel with
  | zero => intro attempt lastErr hf ha _; omega
  | succ f ih =>
      intro attempt lastErr hf ha hfail
      rw [retryLoop, dif_neg (by omega)]
      rcases ho : outcome attempt with _ | e
      · have := hfail attempt (le_refl _) ha
        rw [ho] at this
        exact absurd this (by simp)
      · dsimp only [isClientError]
        rw [if_neg (by simp)]
        by_cases hend : attempt = retryAttempts
        · subst hend
          rw [retryLoop, dif_pos (by omega), ho]
        · exact ih (attempt + 1) (some e) (by omega) (by omega)
            (fun i hi hi2 => hfail i (by omega) hi2)

/-- Claim C8: the retrying proxy performs at most `retryAttempts + 1`
upstream attempts; since `isClientError` is identically false, no error
short-circuits the loop, so when every attempt `i ∈ [0, retryAttempts]`
fails, all `retryAttempts + 1` attempts are made and the error surfaced to
the caller is the one from the final attempt (the most recent error). -/
theorem retry_budget_and_last_error :
    (∀ (retryAttempts : Nat) (outcome : Nat → Option String),
        (proxyRequestWithRetry retryAttempts outcome).2 ≤ retryAttempts + 1) ∧
    (∀ (retryAttempts : Nat) (outcome : Nat → Option String),
        (∀ i, i ≤ retryAttempts → (outcome i).isSome) →
        proxyRequestWithRetry retryAttempts outcome =
          (outcome retryAttempts, retryAttempts + 1)) ∧
    (∀ e : String, isClientError e = false) := by
  refine ⟨?_, ?_, fun _ => rfl⟩
  · intro retryAttempts outcome
    exact retryLoop_count retryAttempts outcome (retryAttempts + 1) 0 none
      (by omega) (by omega)
  · intro retryAttempts outcome hfail
    exact retryLoop_all_fail retryAttempts outcome (retryAttempts + 1) 0 none
      (by omega) (by omega) (fun i _ hi2 => hfail i hi2)

/-- Witness for `retry_budget_and_last_error`: with a budget of 2 retries
and every attempt failing with its index spelled in the error, three
attempts happen and attempt 2's error surfaces. -/
theorem retry_budget_and_last_error_witness :
    proxyRequestWithRetry 2 (fun i => some (toString i)) = (some "2", 3) :=
  (retry_budget_and_last_error.2.1 2 (fun i => some (toString i))
    (fun _ _ => rfl)).trans (by rfl)

/-- Counterexample to claim C4 as stated: a probe response with status 204
is a 2xx success and the backend is down, yet `checkBackend` leaves the
backend down (the code compares against `http.StatusOK`, i.e. exactly 200,
not the 2xx class); moreover a request-construction failure on an
already-down backend confirms the current state but still logs, so it is
not silent. -/
theorem health_check_2xx_counterexample :
    (200 ≤ 204 ∧ 204 < 300) ∧
    (checkBackend false (ProbeResult.response 204)).1 = false ∧
    (checkBackend false ProbeResult.reqError).1 = false ∧
    (checkBackend false ProbeResult.reqError).2 = true := by
  decide

/-- Claim C4 (amended): a backend is marked up only by a probe response
with status exactly 200 (`http.StatusOK`), logged exactly when it was
previously down; a transport failure or a response with any status other
than 200 marks it down, logged exactly when it was previously up — so a
completed probe confirming the current state changes nothing and is
silent; a probe whose request cannot even be constructed marks the backend
down and logs unconditionally. -/
theorem health_check_marks_exactly_200 :
    (∀ wasAlive : Bool,
        checkBackend wasAlive (ProbeResult.response 200) = (true, !wasAlive)) ∧
    (∀ (wasAlive : Bool) (code : Nat), code ≠ 200 →
        checkBackend wasAlive (ProbeResult.response code) = (false, wasAlive)) ∧
    (∀ wasAlive : Bool,
        checkBackend wasAlive ProbeResult.transportError = (false, wasAlive)) ∧
    (∀ wasAlive : Bool,
        checkBackend wasAlive ProbeResult.reqError = (false, true)) := by
  refine ⟨fun wasAlive => ?_, fun wasAlive code hc => ?_, fun _ => rfl, fun _ => rfl⟩
  · rw [checkBackend]
    rw [if_pos rfl]
  · rw [checkBackend]
    rw [if_neg hc]

/-- Witness for `health_check_marks_exactly_200`: a 204 response on an
alive backend marks it down and logs. -/
theorem health_check_marks_exactly_200_witness :
    checkBackend true (ProbeResult.response 204) = (false, true) :=
  health_check_marks_exactly_200.2.1 true 204 (by decide)

/-- Counterexample to claim C5 as stated: with
`X-Forwarded-For = ",1.2.3.4"` the first NON-empty entry is `"1.2.3.4"`
and `X-Real-IP = "9.9.9.9"` is available, yet the code resolves the empty
string: it always takes the first comma-separated entry (here empty) and
never falls through once the header is non-empty. -/
theorem client_ip_counterexample :
    getClientIP ",1.2.3.4" "9.9.9.9" (some "10.0.0.1") "10.0.0.1:80" = "" ∧
    ("" : String) ≠ "1.2.3.4" ∧ ("" : String) ≠ "9.9.9.9" := by
  refine ⟨by decide, by decide, by decide⟩

/-- Claim C5 (amended): whenever `X-Forwarded-For` is non-empty, the
resolved client IP is the trimmed FIRST comma-separated entry of that
header, even when that entry is empty; when the header is absent (empty),
it is the `X-Real-IP` value if non-empty; otherwise the host part of
`net.SplitHostPort(RemoteAddr)` when splitting succeeds, or the raw
`RemoteAddr` when it fails. -/
theorem client_ip_resolution :
    (∀ (xff xri : String) (sh : Option String) (ra : String), xff ≠ "" →
        getClientIP xff xri sh ra = trimSpace ((stringsSplit xff ',').headD "")) ∧
    (∀ (xri : String) (sh : Option String) (ra : String), xri ≠ "" →
        getClientIP "" xri sh ra = xri) ∧
    (∀ (sh ra : String), getClientIP "" "" (some sh) ra = sh) ∧
    (∀ ra : String, getClientIP "" "" none ra = ra) := by
  refine ⟨?_, ?_, fun _ _ => rfl, fun _ => rfl⟩
  · intro xff xri sh ra hx
    unfold getClientIP
    rw [if_pos hx]
  · intro xri sh ra hx
    unfold getClientIP
    rw [if_neg (by simp), if_pos hx]

/-- Witness for `client_ip_resolution`: a two-entry forwarded header
resolves to its trimmed first entry. -/
theorem client_ip_resolution_witness :
    getClientIP " 7.7.7.7 ,8.8.8.8" "" none "peer" = "7.7.7.7" :=
  (client_ip_resolution.1 " 7.7.7.7 ,8.8.8.8" "" none "peer" (by decide)).trans
    (by rfl)

end Gateway
